import Mathlib

/-!
Verification of the `extract-dependency` tool (`src/main.rs`).

The tool parses Rust source files, computes for every `struct` / `type`-alias
definition the set of type names it structurally references (`ContainTypes`),
accumulates a graph from type name to reference set (`Collector`), injects a
synthetic entry `Cell -> {UnsafeCell}` after removing `Id`, runs a fixed-point
taint closure starting from the seed set `{UnsafeCell}`, and renders the
subgraph induced by the reachable set in DOT syntax.

The embedding below mirrors `src/main.rs`.  Syntax-tree shapes come from the
`rustc_ast` crate of the nightly the tool builds against; fields the tool never
reads (spans, node ids, mutability, lifetimes, generics of the definition
itself) are omitted from the embedded shapes.  Unordered `HashSet`s become
`Finset String`; the `HashMap` graph becomes an association list with unique
keys, with `insert` / `remove` / `get` modelled by `insertKey` / `eraseKey` /
`lookupKey` below, which agree with the hash-map operations on the key-value
abstraction.
-/

namespace ExtractDep

mutual

/-- `rustc_ast` type shapes, as dispatched on by `ContainTypes for Ty`
(`TyKind::Slice`, `Array`, `Paren`, `Ptr`, `Rptr`, `BareFn`, `Tup`, `Path`,
and the nine shapes that contribute nothing).  Array lengths, lifetimes and
the qualified-self of `TyKind::Path` are never read by the tool and are
omitted. -/
inductive Ty where
  | slice (t : Ty)
  | array (t : Ty)
  | paren (t : Ty)
  | ptr (m : MutTy)
  | rptr (m : MutTy)
  | bareFn (f : BareFnTy)
  | tup (ts : List Ty)
  | path (p : Path)
  | implTrait
  | traitObject
  | typeofTy
  | macCall
  | implicitSelf
  | never
  | infer
  | err
  | cVarArgs

/-- `rustc_ast::MutTy`: the pointee type of a pointer or reference (the
mutability flag is never read). -/
inductive MutTy where
  | mk (ty : Ty)

/-- `rustc_ast::BareFnTy`, reduced to the parts of its `FnDecl` that the
commented-out recursive variant would read: parameter types and return type. -/
inductive BareFnTy where
  | mk (inputs : List Ty) (output : FnRetTy)

/-- `rustc_ast::FnRetTy`: an explicit return type or the default `()`. -/
inductive FnRetTy where
  | default
  | ty (t : Ty)

/-- `rustc_ast::Path`: a sequence of segments. -/
inductive Path where
  | mk (segments : List PathSegment)

/-- `rustc_ast::PathSegment`: identifier plus optional generic arguments. -/
inductive PathSegment where
  | mk (ident : String) (args : Option GenericArgs)

/-- `rustc_ast::GenericArgs`: `<...>` or `(...) -> ...` argument lists. -/
inductive GenericArgs where
  | angleBracketed (args : List AngleBracketedArg)
  | parenthesized (a : ParenthesizedArgs)

/-- `rustc_ast::AngleBracketedArg`: a plain generic argument or an
associated-type constraint. -/
inductive AngleBracketedArg where
  | arg (a : GenericArg)
  | constraint (c : AssocTyConstraint)

/-- `rustc_ast::GenericArg`: lifetime, type, or const argument. -/
inductive GenericArg where
  | lifetimeArg
  | tyArg (t : Ty)
  | constArg

/-- `rustc_ast::AssocTyConstraint`: identifier, optional generic arguments of
the associated item, and the constraint kind. -/
inductive AssocTyConstraint where
  | mk (ident : String) (gen_args : Option GenericArgs) (kind : AssocTyConstraintKind)

/-- `rustc_ast::AssocTyConstraintKind`: an equality binding `Item = Ty`
(carrying the bound type) or a bound list `Item: Bounds` (whose bounds the
tool never reads). -/
inductive AssocTyConstraintKind where
  | equality (ty : Ty)
  | bound

/-- `rustc_ast::ParenthesizedArgs`: inputs and output of `Fn(..) -> ..`
sugar. -/
inductive ParenthesizedArgs where
  | mk (inputs : List Ty) (output : FnRetTy)

end

/-- `impl ContainTypes for MutTy` (main.rs:164-169): returns the empty set;
the recursive call into the pointee is commented out in the source. -/
def MutTy.type_names (_ : MutTy) : Finset String := ∅

/-- `impl ContainTypes for BareFnTy` (main.rs:171-181): returns the empty
set; the recursive traversal of parameter and return types is commented out
in the source. -/
def BareFnTy.type_names (_ : BareFnTy) : Finset String := ∅

mutual

/-- `impl ContainTypes for Ty` (main.rs:143-162). -/
def Ty.type_names : Ty → Finset String
  | .slice t => Ty.type_names t
  | .array t => Ty.type_names t
  | .paren t => Ty.type_names t
  | .ptr m => MutTy.type_names m
  | .rptr m => MutTy.type_names m
  | .bareFn f => BareFnTy.type_names f
  | .tup ts => tupleNames ts
  | .path p => Path.type_names p
  | .implTrait => ∅
  | .traitObject => ∅
  | .typeofTy => ∅
  | .macCall => ∅
  | .implicitSelf => ∅
  | .never => ∅
  | .infer => ∅
  | .err => ∅
  | .cVarArgs => ∅

/-- Union over a list of types (`flat_map` in the source). -/
def tupleNames : List Ty → Finset String
  | [] => ∅
  | t :: ts => Ty.type_names t ∪ tupleNames ts

/-- `impl ContainTypes for FnRetTy` (main.rs:183-190). -/
def FnRetTy.type_names : FnRetTy → Finset String
  | .ty t => Ty.type_names t
  | .default => ∅

/-- `impl ContainTypes for Path` (main.rs:192-199): the names of the last
segment.  The source unwraps `segments.last()`, which panics on an empty
segment list; the parser never produces one, and the theorems below only
concern nonempty segment lists. -/
def Path.type_names : Path → Finset String
  | .mk segs => lastSegmentNames segs

/-- Names contributed by the last segment of a segment list (empty list
contributes nothing; see `Path.type_names`). -/
def lastSegmentNames : List PathSegment → Finset String
  | [] => ∅
  | [s] => PathSegment.names s
  | _ :: s :: rest => lastSegmentNames (s :: rest)

/-- Names of one segment: its generic-argument names with the segment
identifier inserted (main.rs:194-197). -/
def PathSegment.names : PathSegment → Finset String
  | .mk ident args => insert ident (optGenericArgsNames args)

/-- `seg.args.as_ref().map(type_names).unwrap_or(empty)` (main.rs:195). -/
def optGenericArgsNames : Option GenericArgs → Finset String
  | some a => GenericArgs.type_names a
  | none => ∅

/-- `impl ContainTypes for GenericArgs` (main.rs:201-208). -/
def GenericArgs.type_names : GenericArgs → Finset String
  | .angleBracketed args => angleListNames args
  | .parenthesized a => ParenthesizedArgs.type_names a

/-- Union over angle-bracketed arguments (`flat_map` in the source). -/
def angleListNames : List AngleBracketedArg → Finset String
  | [] => ∅
  | a :: rest => AngleBracketedArg.type_names a ∪ angleListNames rest

/-- `impl ContainTypes for AngleBracketedArg` (main.rs:210-220): a plain
argument contributes its names; a constraint contributes the names of its
`gen_args` field when present and nothing otherwise. -/
def AngleBracketedArg.type_names : AngleBracketedArg → Finset String
  | .arg a => GenericArg.type_names a
  | .constraint (.mk _ (some a) _) => GenericArgs.type_names a
  | .constraint (.mk _ none _) => ∅

/-- `impl ContainTypes for GenericArg` (main.rs:222-229). -/
def GenericArg.type_names : GenericArg → Finset String
  | .tyArg t => Ty.type_names t
  | .lifetimeArg => ∅
  | .constArg => ∅

/-- `impl ContainTypes for ParenthesizedArgs` (main.rs:231-239): union of the
input types' names and the output type's names. -/
def ParenthesizedArgs.type_names : ParenthesizedArgs → Finset String
  | .mk inputs output => tupleNames inputs ∪ FnRetTy.type_names output

end

/-- `rustc_ast::FieldDef`, reduced to its type (the only field the tool
reads). -/
inductive FieldDef where
  | mk (ty : Ty)

/-- `impl ContainTypes for FieldDef` (main.rs:137-141). -/
def FieldDef.type_names : FieldDef → Finset String
  | .mk ty => Ty.type_names ty

/-- `rustc_ast::VariantData`: struct body with named fields, tuple body, or
unit body. -/
inductive VariantData where
  | structD (fields : List FieldDef)
  | tupleD (fields : List FieldDef)
  | unitD

/-- Union over a field list (`flat_map` in the source). -/
def fieldListNames : List FieldDef → Finset String
  | [] => ∅
  | f :: fs => FieldDef.type_names f ∪ fieldListNames fs

/-- `impl ContainTypes for VariantData` (main.rs:126-135). -/
def VariantData.type_names : VariantData → Finset String
  | .structD fs => fieldListNames fs
  | .tupleD fs => fieldListNames fs
  | .unitD => ∅

/-- `rustc_ast::TyAliasKind`, reduced to its fourth component, the optional
target type — the only component the tool reads (`self.3`). -/
inductive TyAliasKind where
  | mk (ty : Option Ty)

/-- `impl ContainTypes for TyAliasKind` (main.rs:241-245). -/
def TyAliasKind.type_names : TyAliasKind → Finset String
  | .mk (some ty) => Ty.type_names ty
  | .mk none => ∅

/-- The graph accumulated by the `Collector`: `HashMap<String, HashSet<String>>`
modelled as an association list with unique keys. -/
abbrev GraphT := List (String × Finset String)

/-- `HashMap::get`: the value at the first (unique) entry with the given
key. -/
def lookupKey (g : GraphT) (k : String) : Option (Finset String) :=
  (g.find? fun kv => decide (kv.1 = k)).map Prod.snd

/-- `HashMap::remove`: drop the entry with the given key. -/
def eraseKey (g : GraphT) (k : String) : GraphT :=
  g.filter fun kv => decide (kv.1 ≠ k)

/-- `HashMap::insert`: replace any entry with the given key by the new
entry. -/
def insertKey (g : GraphT) (k : String) (v : Finset String) : GraphT :=
  (k, v) :: eraseKey g k

/-- The definitions the `Collector`'s `visit_item` (main.rs:107-119) reacts
to: `ItemKind::Struct`, `ItemKind::TyAlias`, and everything else (matched by
`_ => None` in the source). -/
inductive ItemKind where
  | structItem (v : VariantData)
  | tyAliasItem (a : TyAliasKind)
  | otherItem

/-- A visited `rustc_ast::Item`: its identifier and kind. -/
inductive Item where
  | mk (ident : String) (kind : ItemKind)

/-- One `visit_item` call (main.rs:107-119) on state (graph, diagnostics):
a struct or alias inserts its name with its reference set, recording a
`[DUP]` diagnostic (the key and the displaced set) when the insert returns a
previous value; other items leave the map unchanged.  The `walk_item`
recursion into nested items is modelled by feeding the collector the flat
visit sequence. -/
def processItem (st : GraphT × List (String × Finset String)) (it : Item) :
    GraphT × List (String × Finset String) :=
  match it with
  | .mk k (.structItem v) =>
    match lookupKey st.1 k with
    | some old => (insertKey st.1 k (VariantData.type_names v), st.2 ++ [(k, old)])
    | none => (insertKey st.1 k (VariantData.type_names v), st.2)
  | .mk k (.tyAliasItem a) =>
    match lookupKey st.1 k with
    | some old => (insertKey st.1 k (TyAliasKind.type_names a), st.2 ++ [(k, old)])
    | none => (insertKey st.1 k (TyAliasKind.type_names a), st.2)
  | .mk _ .otherItem => st

/-- The whole collection pass: fold `visit_item` over the visit sequence,
starting from an empty map and no diagnostics. -/
def collectItems (its : List Item) : GraphT × List (String × Finset String) :=
  its.foldl processItem ([], [])

/-- One scan of the loop body (main.rs:52-56): the keys of the remaining
entries whose reference set is not disjoint from the reachable set. -/
def passKeys (g : GraphT) (reachable : Finset String) : List String :=
  (g.filter fun kv => decide (kv.2 ∩ reachable ≠ ∅)).map Prod.fst

/-- The removal of the promoted keys from the remaining map
(main.rs:60-63). -/
def promote (g : GraphT) (added : List String) : GraphT :=
  g.filter fun kv => decide (kv.1 ∉ added)

/-- One iteration of the fixed-point loop on the state (remaining map,
reachable set): drop the promoted entries and add their keys to the reachable
set. -/
def step (st : GraphT × Finset String) : GraphT × Finset String :=
  (promote st.1 (passKeys st.1 st.2), st.2 ∪ (passKeys st.1 st.2).toFinset)

/-- The fixed-point loop (main.rs:50-64), with an explicit iteration budget:
stop when a scan promotes nothing, otherwise apply `step` and continue.
`run_reaches_fixed_point` below shows that a budget of `g.length` iterations
always reaches the fixed point, which is the source's termination
argument. -/
def run : Nat → GraphT × Finset String → GraphT × Finset String
  | 0, st => st
  | n + 1, st => if passKeys st.1 st.2 = [] then st else run n (step st)

/-- The reachable set computed by the loop from a graph and a seed set. -/
def closure (g : GraphT) (seeds : Finset String) : Finset String :=
  (run g.length (g, seeds)).2

/-- The edges written by the renderer (main.rs:69-75): for every reachable
`r` with a graph entry `ks`, one edge `(r, k)` per `k` in `ks ∩ reachable`. -/
def inducedEdges (g : GraphT) (reachable : Finset String) :
    Finset (String × String) :=
  reachable.biUnion fun r =>
    (lookupKey g r).elim ∅ fun ks => (ks ∩ reachable).image fun k => (r, k)

/-- One output line (main.rs:72): the two node names wrapped in literal
double quotes. -/
def edgeLine (e : String × String) : String :=
  "  \"" ++ e.1 ++ "\" -> \"" ++ e.2 ++ "\";\n"

/-- The full output (main.rs:68-76) for one enumeration of the edge set:
header line, one line per edge in enumeration order, closing brace. -/
def renderOutput (el : List (String × String)) : String :=
  "digraph G \x7b\n" ++ el.foldl (fun acc e => acc ++ edgeLine e) "" ++ "\x7d"

/-- The seed set of `main` (main.rs:47-48): the primitive `UnsafeCell`. -/
def mainSeeds : Finset String := {"UnsafeCell"}

/-- The graph preprocessing of `main` (main.rs:40-44): remove `Id`, then map
`Cell` to the reference set `{UnsafeCell}`. -/
def mainGraph (items : GraphT) : GraphT :=
  insertKey (eraseKey items "Id") "Cell" {"UnsafeCell"}

/-- The reachable set `main` computes from the collected graph. -/
def mainReachable (items : GraphT) : Finset String :=
  closure (mainGraph items) mainSeeds

/-- The edge set `main` renders from the collected graph. -/
def mainEdges (items : GraphT) : Finset (String × String) :=
  inducedEdges (mainGraph items) (mainReachable items)

/-- The set of keys of an association list. -/
def keysOf (g : GraphT) : Finset String :=
  (g.map Prod.fst).toFinset

/-- A named-path type with a single plain segment, e.g. the field type `Foo`. -/
def namedTy (s : String) : Ty :=
  .path (.mk [.mk s none])

/-- A struct body with a single field of the given type. -/
def oneFieldStruct (t : Ty) : VariantData :=
  .structD [.mk t]

/-- The definitions of the end-to-end example: `A { f: Seed }`,
`B { f: A }`, `C { f: Unrelated }`. -/
def exampleItems : List Item :=
  [.mk "A" (.structItem (oneFieldStruct (namedTy "Seed"))),
   .mk "B" (.structItem (oneFieldStruct (namedTy "A"))),
   .mk "C" (.structItem (oneFieldStruct (namedTy "Unrelated")))]

/-- The graph collected from the end-to-end example definitions. -/
def exampleGraph : GraphT :=
  (collectItems exampleItems).1

/-- The segment `Vec<Foo>`. -/
def vecFooSegment : PathSegment :=
  .mk "Vec" (some (.angleBracketed [.arg (.tyArg (namedTy "Foo"))]))

/-- The field type `Vec<Foo>`. -/
def vecFooTy : Ty :=
  .path (.mk [vecFooSegment])

/-- A record with a directly embedded field `Foo` and a pointer field
`*const Bar`. -/
def directAndBoxedRecord : VariantData :=
  .structD [.mk (namedTy "Foo"), .mk (.ptr (.mk (namedTy "Bar")))]

/-- The associated-type constraint `Item = Foo`: no generic arguments on the
associated item, an equality kind binding the type `Foo`. -/
def itemEqFooConstraint : AssocTyConstraint :=
  .mk "Item" none (.equality (namedTy "Foo"))

/-- Modelled from the spec (§4.1): "Generic-argument entries that are
themselves constraints/bindings (associated-type equality constraints)
contribute the referenced types of their bound value, if any."  The bound
value of an equality constraint is the type it binds; a bounds-list
constraint has none.  This definition follows the spec's words and is
compared against the extractor's actual `AngleBracketedArg` dispatch. -/
def specConstraintContribution (c : AssocTyConstraint) : Finset String :=
  match c with
  | .mk _ _ (.equality ty) => Ty.type_names ty
  | .mk _ _ .bound => ∅

/-- The duplicate-definition example bodies: `struct X { a: Foo }` and
`struct X { b: Bar }`. -/
def xFooBody : VariantData := oneFieldStruct (namedTy "Foo")

/-- Second body of the duplicate-definition example. -/
def xBarBody : VariantData := oneFieldStruct (namedTy "Bar")

/-- Filtering a list strictly shortens it when some member fails the
predicate. -/
theorem length_filter_lt_of_mem {α : Type} {p : α → Bool} {l : List α} {x : α}
    (hx : x ∈ l) (hp : p x = false) : (l.filter p).length < l.length := by
  induction l with
  | nil => cases hx
  | cons a l ih =>
    rw [List.filter_cons]
    rcases List.mem_cons.mp hx with rfl | hx'
    · rw [hp]
      simpa using Nat.lt_succ_of_le (List.length_filter_le _ _)
    · cases hpa : p a
      · simpa using Nat.lt_succ_of_lt (ih hx')
      · simpa using Nat.succ_lt_succ (ih hx')

/-- Unfolding of one loop iteration. -/
theorem run_succ (n : Nat) (st : GraphT × Finset String) :
    run (n + 1) st = if passKeys st.1 st.2 = [] then st else run n (step st) := rfl

/-- The reachable set only ever grows along the loop. -/
theorem run_mono : ∀ (n : Nat) (st : GraphT × Finset String), st.2 ⊆ (run n st).2 := by
  intro n
  induction n with
  | zero => intro st; exact Finset.Subset.refl _
  | succ n ih =>
    intro st
    rw [run_succ]
    by_cases h : passKeys st.1 st.2 = []
    · rw [if_pos h]
    · rw [if_neg h]
      exact Finset.Subset.trans Finset.subset_union_left (ih (step st))

/-- Every key promoted by a scan is a key of the scanned map. -/
theorem passKeys_subset_keys {g : GraphT} {r : Finset String} {x : String}
    (hx : x ∈ passKeys g r) : x ∈ keysOf g := by
  obtain ⟨kv, hkv, rfl⟩ := List.mem_map.mp hx
  exact List.mem_toFinset.mpr (List.mem_map.mpr ⟨kv, (List.mem_filter.mp hkv).1, rfl⟩)

/-- Promoting entries out of a map only removes keys. -/
theorem keysOf_promote_subset (g : GraphT) (added : List String) :
    keysOf (promote g added) ⊆ keysOf g := by
  intro x hx
  obtain ⟨kv, hkv, rfl⟩ := List.mem_map.mp (List.mem_toFinset.mp hx)
  exact List.mem_toFinset.mpr (List.mem_map.mpr ⟨kv, (List.mem_filter.mp hkv).1, rfl⟩)

/-- The reachable set stays inside the seeds united with the keys of the
initial remaining map. -/
theorem run_subset_keys : ∀ (n : Nat) (g : GraphT) (r : Finset String),
    (run n (g, r)).2 ⊆ r ∪ keysOf g := by
  intro n
  induction n with
  | zero => intro g r; exact Finset.subset_union_left
  | succ n ih =>
    intro g r
    rw [run_succ]
    by_cases h : passKeys g r = []
    · rw [if_pos h]; exact Finset.subset_union_left
    · rw [if_neg h]
      refine Finset.Subset.trans
        (ih (promote g (passKeys g r)) (r ∪ (passKeys g r).toFinset)) ?_
      rw [Finset.union_subset_iff, Finset.union_subset_iff]
      refine ⟨⟨Finset.subset_union_left, ?_⟩, ?_⟩
      · intro x hx
        exact Finset.mem_union_right _ (passKeys_subset_keys (List.mem_toFinset.mp hx))
      · intro x hx
        exact Finset.mem_union_right _ (keysOf_promote_subset _ _ hx)

/-- A nonempty scan strictly shrinks the remaining map. -/
theorem promote_length_lt {g : GraphT} {r : Finset String}
    (h : passKeys g r ≠ []) : (promote g (passKeys g r)).length < g.length := by
  have hf : g.filter (fun kv => decide (kv.2 ∩ r ≠ ∅)) ≠ [] := by
    intro hnil
    refine h ?_
    unfold passKeys
    rw [hnil]
    rfl
  obtain ⟨kv, hkv⟩ := List.exists_mem_of_ne_nil _ hf
  have hmem : kv ∈ g := (List.mem_filter.mp hkv).1
  have hkey : kv.1 ∈ passKeys g r := List.mem_map.mpr ⟨kv, hkv, rfl⟩
  exact length_filter_lt_of_mem hmem (by simpa using hkey)

/-- `g.length` loop iterations always reach the fixed point: each iteration
either promotes nothing (and every later scan still promotes nothing) or
strictly shrinks the remaining map. -/
theorem run_reaches_fixed_point : ∀ (n : Nat) (g : GraphT) (r : Finset String),
    g.length ≤ n → passKeys (run n (g, r)).1 (run n (g, r)).2 = [] := by
  intro n
  induction n with
  | zero =>
    intro g r h
    have : g = [] := List.length_eq_zero.mp (Nat.le_zero.mp h)
    subst this
    rfl
  | succ n ih =>
    intro g r h
    rw [run_succ]
    by_cases hp : passKeys g r = []
    · rw [if_pos hp]; exact hp
    · rw [if_neg hp]
      exact ih _ _ (Nat.le_of_lt_succ (Nat.lt_of_lt_of_le (promote_length_lt hp) h))

/-- An empty scan means every remaining reference set misses the reachable
set. -/
theorem passKeys_eq_nil_iff {g : GraphT} {r : Finset String} :
    passKeys g r = [] ↔ ∀ kv ∈ g, kv.2 ∩ r = ∅ := by
  simp [passKeys, List.map_eq_nil_iff, List.filter_eq_nil_iff]

/-- Entries of the initial map end up promoted or still remaining. -/
theorem run_preserves_entries : ∀ (n : Nat) (g : GraphT) (r : Finset String)
    (kv : String × Finset String), kv ∈ g →
    kv.1 ∈ (run n (g, r)).2 ∨ kv ∈ (run n (g, r)).1 := by
  intro n
  induction n with
  | zero => intro g r kv hkv; exact Or.inr hkv
  | succ n ih =>
    intro g r kv hkv
    rw [run_succ]
    by_cases hp : passKeys g r = []
    · rw [if_pos hp]; exact Or.inr hkv
    · rw [if_neg hp]
      by_cases hk : kv.1 ∈ passKeys g r
      · left
        exact run_mono n (step (g, r))
          (Finset.mem_union_right _ (List.mem_toFinset.mpr hk))
      · have hkv' : kv ∈ (step (g, r)).1 :=
          List.mem_filter.mpr ⟨hkv, by simpa using hk⟩
        exact ih (step (g, r)).1 (step (g, r)).2 kv hkv'

/-- At a fixed point the loop is the identity. -/
theorem run_of_passKeys_nil {g : GraphT} {r : Finset String}
    (h : passKeys g r = []) : ∀ n, run n (g, r) = (g, r) := by
  intro n
  cases n with
  | zero => rfl
  | succ n => rw [run_succ, if_pos h]

/-- Membership in an erased map. -/
theorem mem_of_mem_eraseKey {g : GraphT} {k : String} {kv : String × Finset String}
    (h : kv ∈ eraseKey g k) : kv ∈ g ∧ kv.1 ≠ k := by
  have h' := List.mem_filter.mp h
  exact ⟨h'.1, by simpa using h'.2⟩

/-- Lookup misses when no entry carries the key. -/
theorem lookupKey_eq_none_of_forall {g : GraphT} {k : String}
    (h : ∀ kv ∈ g, kv.1 ≠ k) : lookupKey g k = none := by
  have hf : g.find? (fun kv => decide (kv.1 = k)) = none :=
    List.find?_eq_none.mpr (by intro x hx; simpa using h x hx)
  simp [lookupKey, hf]

/-- Lookup after insert finds the inserted value (last writer wins). -/
theorem lookupKey_insertKey_self (g : GraphT) (k : String) (v : Finset String) :
    lookupKey (insertKey g k v) k = some v := by
  have hf : List.find? (fun kv => decide (kv.1 = k)) ((k, v) :: eraseKey g k)
      = some (k, v) := List.find?_cons_of_pos _ (by simp)
  simp [lookupKey, insertKey, hf]

/-- The synthetic entry heads the preprocessed graph. -/
theorem cell_entry_mem_mainGraph (items : GraphT) :
    ("Cell", ({"UnsafeCell"} : Finset String)) ∈ mainGraph items :=
  List.mem_cons_self _ _

/-- `main`'s graph maps `Cell` to the synthetic reference set. -/
theorem lookupKey_mainGraph_cell (items : GraphT) :
    lookupKey (mainGraph items) "Cell" = some {"UnsafeCell"} :=
  lookupKey_insertKey_self _ _ _

/-- `Id` never keys the preprocessed graph. -/
theorem id_not_key_mainGraph (items : GraphT) :
    ∀ kv ∈ mainGraph items, kv.1 ≠ "Id" := by
  intro kv hkv
  rcases List.mem_cons.mp hkv with rfl | htail
  · intro hcontra
    exact absurd hcontra (by decide)
  · exact (mem_of_mem_eraseKey (mem_of_mem_eraseKey htail).1).2

/-- `main`'s graph has no entry for `Id`. -/
theorem lookupKey_mainGraph_id (items : GraphT) :
    lookupKey (mainGraph items) "Id" = none :=
  lookupKey_eq_none_of_forall (id_not_key_mainGraph items)

/-- The seed is always reachable. -/
theorem unsafeCell_mem_mainReachable (items : GraphT) :
    "UnsafeCell" ∈ mainReachable items :=
  run_mono _ _ (Finset.mem_singleton_self _)

/-- The umbrella type `Cell` is always reachable: its synthetic entry
mentions the seed, so at the fixed point it cannot still be remaining. -/
theorem cell_mem_mainReachable (items : GraphT) :
    "Cell" ∈ mainReachable items := by
  have hfix := run_reaches_fixed_point (mainGraph items).length (mainGraph items)
    mainSeeds (Nat.le_refl _)
  rcases run_preserves_entries (mainGraph items).length (mainGraph items) mainSeeds
      ("Cell", {"UnsafeCell"}) (cell_entry_mem_mainGraph items) with hr | hg
  · exact hr
  · exfalso
    have hdisj := passKeys_eq_nil_iff.mp hfix _ hg
    have hseed : "UnsafeCell" ∈
        (run (mainGraph items).length (mainGraph items, mainSeeds)).2 :=
      run_mono _ _ (Finset.mem_singleton_self _)
    have : "UnsafeCell" ∈ (({"UnsafeCell"} : Finset String) ∩
        (run (mainGraph items).length (mainGraph items, mainSeeds)).2) :=
      Finset.mem_inter.mpr ⟨Finset.mem_singleton_self _, hseed⟩
    rw [hdisj] at this
    exact absurd this (Finset.not_mem_empty _)

/-- The removed type `Id` is never reachable: it is neither a seed nor a key
of the preprocessed graph. -/
theorem id_not_mem_mainReachable (items : GraphT) :
    "Id" ∉ mainReachable items := by
  intro hmem
  rcases Finset.mem_union.mp (run_subset_keys _ _ _ hmem) with hseed | hkey
  · exact absurd (Finset.mem_singleton.mp hseed) (by decide)
  · obtain ⟨kv, hkv, hfst⟩ := List.mem_map.mp (List.mem_toFinset.mp hkey)
    exact id_not_key_mainGraph items kv hkv hfst

/-- Introduction rule for the rendered edge set. -/
theorem mem_inducedEdges_intro {g : GraphT} {r : Finset String} {a b : String}
    {ks : Finset String} (ha : a ∈ r) (hl : lookupKey g a = some ks)
    (hb : b ∈ ks) (hbr : b ∈ r) : (a, b) ∈ inducedEdges g r := by
  refine Finset.mem_biUnion.mpr ⟨a, ha, ?_⟩
  rw [hl]
  exact Finset.mem_image.mpr ⟨b, Finset.mem_inter.mpr ⟨hb, hbr⟩, rfl⟩

/-- Both endpoints of every rendered edge are reachable. -/
theorem mem_inducedEdges_endpoints {g : GraphT} {r : Finset String}
    {e : String × String} (he : e ∈ inducedEdges g r) : e.1 ∈ r ∧ e.2 ∈ r := by
  obtain ⟨a, ha, hmem⟩ := Finset.mem_biUnion.mp he
  cases hl : lookupKey g a with
  | none => rw [hl] at hmem; exact absurd hmem (Finset.not_mem_empty _)
  | some ks =>
    rw [hl] at hmem
    obtain ⟨b, hb, rfl⟩ := Finset.mem_image.mp hmem
    exact ⟨ha, (Finset.mem_inter.mp hb).2⟩

/-- The synthetic edge is always part of the rendered edge set. -/
theorem cell_edge_mem_mainEdges (items : GraphT) :
    ("Cell", "UnsafeCell") ∈ mainEdges items :=
  mem_inducedEdges_intro (cell_mem_mainReachable items)
    (lookupKey_mainGraph_cell items) (Finset.mem_singleton_self _)
    (unsafeCell_mem_mainReachable items)

/-- The sequential writes of the render loop produce the concatenation of
the edge lines. -/
theorem foldl_edgeLine_data (el : List (String × String)) : ∀ acc : String,
    (el.foldl (fun acc e => acc ++ edgeLine e) acc).data
      = acc.data ++ (el.map fun e => (edgeLine e).data).flatten := by
  induction el with
  | nil => intro acc; simp
  | cons e el ih =>
    intro acc
    rw [List.foldl_cons, ih]
    simp

/-- The output decomposes into header, one line per edge, and footer. -/
theorem renderOutput_data (el : List (String × String)) :
    (renderOutput el).data = "digraph G \x7b\n".data
      ++ (el.map fun e => (edgeLine e).data).flatten ++ "\x7d".data := by
  rw [renderOutput]
  rw [String.data_append, String.data_append, foldl_edgeLine_data]
  simp

/-- The last-segment traversal agrees with `getLast?` on nonempty segment
lists. -/
theorem lastSegmentNames_getLast : ∀ (segs : List PathSegment) (seg : PathSegment),
    segs.getLast? = some seg → lastSegmentNames segs = PathSegment.names seg := by
  intro segs
  induction segs with
  | nil => intro seg h; cases h
  | cons a l ih =>
    intro seg h
    cases l with
    | nil =>
      rw [List.getLast?_singleton] at h
      cases h
      rfl
    | cons b l' =>
      rw [List.getLast?_cons_cons] at h
      exact ih seg h

/-- C1: end-to-end closure correctness.  For the graph built from the
definitions `A { f: Seed }`, `B { f: A }`, `C { f: Unrelated }` and the seed
set `{Seed}`, the fixed-point loop yields exactly the reachable set
`{Seed, A, B}`, and the renderer's edge set is exactly
`"B" -> "A"` and `"A" -> "Seed"` — `Seed` appears only as an edge target,
never as a source, and no edge touches `C`. -/
theorem c1_end_to_end_closure :
    closure exampleGraph {"Seed"} = {"Seed", "A", "B"}
    ∧ inducedEdges exampleGraph (closure exampleGraph {"Seed"})
        = {("B", "A"), ("A", "Seed")} :=
  ⟨by decide, by decide⟩

/-- C2: output format.  For every graph, reachable set, and enumeration of
the induced edge set, the output is the header line `digraph G` + brace,
followed by exactly one line per enumerated edge (each node name wrapped in
literal double quotes, see `edgeLine`), followed by the closing brace; every
rendered edge has both endpoints in the reachable set; and with no induced
edges the output is exactly the header and footer with no edge lines. -/
theorem c2_output_format (g : GraphT) (reachable : Finset String)
    (el : List (String × String)) (hel : el.toFinset = inducedEdges g reachable) :
    (renderOutput el).data = "digraph G \x7b\n".data
        ++ (el.map fun e => (edgeLine e).data).flatten ++ "\x7d".data
    ∧ (∀ e ∈ el, e.1 ∈ reachable ∧ e.2 ∈ reachable)
    ∧ (el = [] → renderOutput el = "digraph G \x7b\n\x7d") := by
  refine ⟨renderOutput_data el, ?_, ?_⟩
  · intro e he
    exact mem_inducedEdges_endpoints (hel ▸ List.mem_toFinset.mpr he)
  · intro h
    rw [h]
    rfl

/-- Witness for C2 at the empty graph with no reachable nodes. -/
theorem c2_output_format_witness :
    renderOutput [] = "digraph G \x7b\n\x7d" :=
  (c2_output_format [] ∅ [] (by decide)).2.2 rfl

/-- C3 (implicit): for every collected graph — including the empty one — the
synthetic entry `Cell -> {UnsafeCell}` and the seed `UnsafeCell` are always
injected, so the edge `"Cell" -> "UnsafeCell"` is always induced, its line
always appears in the output, and the whole-program output is never the bare
`digraph G` header and footer. -/
theorem c3_synthetic_edge_always_rendered (items : GraphT)
    (el : List (String × String)) (hel : el.toFinset = mainEdges items) :
    ("Cell", "UnsafeCell") ∈ mainEdges items
    ∧ (∃ l₁ l₂, (renderOutput el).data
        = l₁ ++ (edgeLine ("Cell", "UnsafeCell")).data ++ l₂)
    ∧ renderOutput el ≠ "digraph G \x7b\n\x7d" := by
  have hmem : ("Cell", "UnsafeCell") ∈ mainEdges items := cell_edge_mem_mainEdges items
  have hmem_el : ("Cell", "UnsafeCell") ∈ el := List.mem_toFinset.mp (hel ▸ hmem)
  obtain ⟨s, t, hst⟩ := List.append_of_mem hmem_el
  have hsplit : ∃ l₁ l₂, (renderOutput el).data
      = l₁ ++ (edgeLine ("Cell", "UnsafeCell")).data ++ l₂ := by
    refine ⟨"digraph G \x7b\n".data ++ (s.map fun e => (edgeLine e).data).flatten,
      (t.map fun e => (edgeLine e).data).flatten ++ "\x7d".data, ?_⟩
    rw [hst, renderOutput_data]
    simp
  refine ⟨hmem, hsplit, ?_⟩
  intro hcontra
  obtain ⟨l₁, l₂, hdata⟩ := hsplit
  have h2 : ("digraph G \x7b\n\x7d" : String).data
      = l₁ ++ (edgeLine ("Cell", "UnsafeCell")).data ++ l₂ := by
    rw [← hcontra]
    exact hdata
  have hlen := congrArg List.length h2
  rw [List.length_append, List.length_append] at hlen
  have hc : (edgeLine ("Cell", "UnsafeCell")).data.length = 26 := by decide
  have h13 : ("digraph G \x7b\n\x7d" : String).data.length = 13 := by decide
  rw [hc, h13] at hlen
  omega

/-- Witness for C3 at the empty source set. -/
theorem c3_synthetic_edge_always_rendered_witness :
    renderOutput [("Cell", "UnsafeCell")] ≠ "digraph G \x7b\n\x7d" :=
  (c3_synthetic_edge_always_rendered [] [("Cell", "UnsafeCell")] (by decide)).2.2

/-- C4: pointer/indirection policy.  The extractor returns the empty
reference set for every pointer or reference pointee (`MutTy`) and for every
function-pointer type (`BareFnTy`) — pointee, parameter, and return types are
never traversed — and the record with fields `(direct: Foo, boxed: *Bar)`
yields exactly `{Foo}`. -/
theorem c4_indirection_empty :
    (∀ m : MutTy, MutTy.type_names m = ∅)
    ∧ (∀ f : BareFnTy, BareFnTy.type_names f = ∅)
    ∧ (∀ m : MutTy, Ty.type_names (.ptr m) = ∅)
    ∧ (∀ m : MutTy, Ty.type_names (.rptr m) = ∅)
    ∧ (∀ f : BareFnTy, Ty.type_names (.bareFn f) = ∅)
    ∧ VariantData.type_names directAndBoxedRecord = {"Foo"} :=
  ⟨fun _ => rfl, fun _ => rfl, fun _ => rfl, fun _ => rfl, fun _ => rfl, by decide⟩

/-- C5 counterexample: the special-cased (removed) type name `Id` does NOT
appear in the reachable set, even when the sources give it a natural
definition that directly references the seed primitive — its removal
guarantees it can never be promoted. -/
theorem c5_removed_name_unreachable_cex :
    "Id" ∉ mainReachable [("Id", {"UnsafeCell"})] := by decide

/-- C5 amended: before the closure runs, the umbrella name `Cell` is mapped
to a reference set containing the seed primitive `UnsafeCell`, the seed
primitive is placed in the seed set, and the special-cased name `Id` is
removed from the graph entirely; with that done, the umbrella name appears
in the resulting reachable set (its natural definition, if any, is ignored),
while the removed special-cased name never appears in the reachable set. -/
theorem c5_synthetic_redirection_amended (items : GraphT) :
    lookupKey (mainGraph items) "Cell" = some {"UnsafeCell"}
    ∧ "UnsafeCell" ∈ mainSeeds
    ∧ lookupKey (mainGraph items) "Id" = none
    ∧ "Cell" ∈ mainReachable items
    ∧ "Id" ∉ mainReachable items :=
  ⟨lookupKey_mainGraph_cell items, Finset.mem_singleton_self _,
    lookupKey_mainGraph_id items, cell_mem_mainReachable items,
    id_not_mem_mainReachable items⟩

/-- C6: duplicate-definition handling.  Whenever a struct or alias
definition collides with an existing graph key, the later reference set
replaces the earlier one, exactly one diagnostic naming the colliding key
and the displaced set is appended, and processing continues; the concrete
`struct X { a: Foo }` then `struct X { b: Bar }` example leaves
`Graph["X"] = {Bar}` with the single diagnostic `("X", {Foo})`. -/
theorem c6_duplicate_overwrite :
    (∀ (g : GraphT) (d : List (String × Finset String)) (k : String)
        (v : VariantData) (old : Finset String), lookupKey g k = some old →
        processItem (g, d) (.mk k (.structItem v))
          = (insertKey g k (VariantData.type_names v), d ++ [(k, old)]))
    ∧ (∀ (g : GraphT) (d : List (String × Finset String)) (k : String)
        (a : TyAliasKind) (old : Finset String), lookupKey g k = some old →
        processItem (g, d) (.mk k (.tyAliasItem a))
          = (insertKey g k (TyAliasKind.type_names a), d ++ [(k, old)]))
    ∧ (∀ (g : GraphT) (k : String) (v : Finset String),
        lookupKey (insertKey g k v) k = some v)
    ∧ lookupKey (collectItems
        [.mk "X" (.structItem xFooBody), .mk "X" (.structItem xBarBody)]).1 "X"
        = some {"Bar"}
    ∧ (collectItems
        [.mk "X" (.structItem xFooBody), .mk "X" (.structItem xBarBody)]).2
        = [("X", {"Foo"})] := by
  refine ⟨?_, ?_, lookupKey_insertKey_self, by decide, by decide⟩
  · intro g d k v old h
    simp [processItem, h]
  · intro g d k a old h
    simp [processItem, h]

/-- Witness for C6 at the concrete duplicate definition of `X`. -/
theorem c6_duplicate_overwrite_witness :
    processItem ([("X", {"Foo"})], []) (.mk "X" (.structItem xBarBody))
      = (insertKey [("X", {"Foo"})] "X" (VariantData.type_names xBarBody),
          [("X", {"Foo"})]) :=
  c6_duplicate_overwrite.1 [("X", {"Foo"})] [] "X" xBarBody {"Foo"} (by decide)

/-- C7 counterexample: for the associated-type equality constraint
`Item = Foo` (no generic arguments on the associated item), the extractor's
contribution is the empty set, not the referenced types of the constraint's
bound value as the claim states — the extractor reads the constraint's
generic-argument list, never the bound value. -/
theorem c7_constraint_contribution_cex :
    AngleBracketedArg.type_names (.constraint itemEqFooConstraint)
      ≠ specConstraintContribution itemEqFooConstraint := by decide

/-- C7 amended: for every generic-argument entry that is a
constraint/binding, the extractor's contribution is the set of type names
referenced by the constraint's generic-argument list when one is present and
the empty set otherwise; the constraint's bound value is never traversed
(the contribution does not depend on the constraint kind). -/
theorem c7_constraint_contribution_amended :
    ∀ (i : String) (ga : Option GenericArgs) (k : AssocTyConstraintKind),
      AngleBracketedArg.type_names (.constraint (.mk i ga k)) = optGenericArgsNames ga
      ∧ ∀ k' : AssocTyConstraintKind,
          AngleBracketedArg.type_names (.constraint (.mk i ga k))
            = AngleBracketedArg.type_names (.constraint (.mk i ga k')) := by
  intro i ga k
  cases ga with
  | some a => exact ⟨rfl, fun _ => rfl⟩
  | none => exact ⟨rfl, fun _ => rfl⟩

/-- C8: named-path extraction.  For every named-path type with a last
segment, the extractor returns the final segment's name inserted into the
referenced types of that segment's generic arguments; angle-bracketed and
parenthesized argument lists are both supported, the latter contributing the
union of its input types and its output type; `Vec<Foo>` yields
`{Vec, Foo}`. -/
theorem c8_named_path_extraction :
    (∀ (segs : List PathSegment) (seg : PathSegment), segs.getLast? = some seg →
        Path.type_names (.mk segs) = PathSegment.names seg)
    ∧ (∀ (i : String) (ga : Option GenericArgs),
        PathSegment.names (.mk i ga) = insert i (optGenericArgsNames ga))
    ∧ (∀ (inputs : List Ty) (output : FnRetTy),
        GenericArgs.type_names (.parenthesized (.mk inputs output))
          = tupleNames inputs ∪ FnRetTy.type_names output)
    ∧ Ty.type_names vecFooTy = {"Vec", "Foo"} :=
  ⟨fun segs seg h => lastSegmentNames_getLast segs seg h,
    fun _ _ => rfl, fun _ _ => rfl, by decide⟩

/-- Witness for C8 at the path `Vec<Foo>`. -/
theorem c8_named_path_extraction_witness :
    Path.type_names (.mk [vecFooSegment]) = PathSegment.names vecFooSegment :=
  c8_named_path_extraction.1 [vecFooSegment] vecFooSegment rfl

/-- C9: reachability invariant.  The reachable set after a pass is a
superset of the reachable set before it and grows monotonically along the
whole loop; the final reachable set contains the seed set and is contained
in the seed set united with the graph's keys; and once a scan promotes
nothing, any number of further iterations changes nothing. -/
theorem c9_reachability_invariant :
    (∀ (g : GraphT) (r : Finset String), r ⊆ (step (g, r)).2)
    ∧ (∀ (n : Nat) (st : GraphT × Finset String), st.2 ⊆ (run n st).2)
    ∧ (∀ (g : GraphT) (seeds : Finset String), seeds ⊆ closure g seeds)
    ∧ (∀ (g : GraphT) (seeds : Finset String), closure g seeds ⊆ seeds ∪ keysOf g)
    ∧ (∀ (g : GraphT) (r : Finset String) (n : Nat),
        passKeys g r = [] → run n (g, r) = (g, r)) :=
  ⟨fun _ _ => Finset.subset_union_left,
    run_mono,
    fun g seeds => run_mono g.length (g, seeds),
    fun g seeds => run_subset_keys g.length g seeds,
    fun _ _ n h => run_of_passKeys_nil h n⟩

/-- Witness for C9 at an already-stable state. -/
theorem c9_reachability_invariant_witness :
    run 1 ([], ∅) = ([], ∅) :=
  c9_reachability_invariant.2.2.2.2 [] ∅ 1 rfl

/-- C10: termination.  Every pass that promotes at least one node strictly
shrinks the remaining map, and a budget of one iteration per initial graph
entry always suffices: after `g.length` iterations the scan promotes
nothing, so the loop has terminated. -/
theorem c10_termination :
    (∀ (g : GraphT) (r : Finset String), passKeys g r ≠ [] →
        (step (g, r)).1.length < g.length)
    ∧ (∀ (g : GraphT) (r : Finset String),
        passKeys (run g.length (g, r)).1 (run g.length (g, r)).2 = []) :=
  ⟨fun _ _ h => promote_length_lt h,
    fun g r => run_reaches_fixed_point g.length g r (Nat.le_refl _)⟩

/-- Witness for C10 at a one-entry graph whose entry is promoted. -/
theorem c10_termination_witness :
    (step ([("A", {"A"})], {"A"})).1.length < 1 :=
  c10_termination.1 [("A", {"A"})] {"A"} (by decide)

end ExtractDep
